import Mathlib

/-!
# Screenshot capture of polyscope (`src/screenshot.cpp`)

A shallow embedding of the capture pipeline: format selection by file-name
suffix (`hasExtension`, `saveImage`), the explicit-path capture
`screenshot(std::string, bool)`, the prompting capture `screenshot(bool)` and
the screenshot counter.

Conventions of the embedding.

* A `std::string` is the list of its `char` codes (`List Nat`, each code a byte).
  Where a string is rebuilt from `c_str()` (the `operator+` of `screenshot(bool)`), only
  the characters before the first NUL arrive.
* `int` is 32 bits wide. The view size and the loop counters are non-negative, so an
  `int` value is a natural number up to `INT_MAX = 2 ^ 31 - 1`. An `int` expression
  whose value would exceed `INT_MAX` (signed overflow) and a store outside the vector
  are undefined behaviour: the capture does not return, its result is `none`.
  The checks cover the index arithmetic of the alpha loop; the stride `channels * w`
  that `saveImage` passes on to the PNG writer is recorded as its mathematical value.
* `size_t` is 64 bits wide and wraps: `state::screenshotInd++` is `(n + 1) % 2 ^ 64`.
* The process-wide variables (`render::engine` flags, the redraw bit, the view
  size, the counter) are the fields of one `State` that every operation threads;
  a capture that returns yields `some` state.
-/

namespace polyscope

/-! ## Strings -/

/-- The character codes of a string literal (the literals used here are ASCII, one
`char` per character). -/
def chars (s : String) : List Nat := s.toList.map Char.toNat

/-- `::tolower` in the "C" locale: the upper-case ASCII letters move to lower case. -/
def tolower (c : Nat) : Nat := if 65 ≤ c ∧ c ≤ 90 then c + 32 else c

/-- `::toupper` in the "C" locale. -/
def toupper (c : Nat) : Nat := if 97 ≤ c ∧ c ≤ 122 then c - 32 else c

/-- `std::string::c_str()` read as a C string: the characters before the first NUL. -/
def c_str (s : List Nat) : List Nat := s.takeWhile (fun c => c != 0)

/-- `hasExtension(str, ext)`: both strings are lower-cased, then `ext` is compared with
the last `ext.length()` characters of `str`. -/
def hasExtension (str ext : List Nat) : Bool :=
  let str := str.map tolower
  let ext := ext.map tolower
  if str.length ≥ ext.length then
    (str.drop (str.length - ext.length)).take ext.length == ext
  else
    false

/-- The wording of the specification: the lower-cased form of `name` ends in `suffix`. -/
def lowerEndsIn (name suffix : List Nat) : Prop := suffix <:+ name.map tolower

instance (name suffix : List Nat) : Decidable (lowerEndsIn name suffix) := by
  unfold lowerEndsIn; infer_instance

/-! ## The image writers -/

/-- A call of one of the two stb writers, with the arguments it receives.
`png name w h comp data stride` is `stbi_write_png`, `jpg name w h comp data quality`
is `stbi_write_jpg`. The pointer argument `name.c_str()` is recorded as the string `name`
it points into, the pointer `buffer` as the bytes behind it. -/
inductive WriteCall where
  | png (name : List Nat) (w h comp : Nat) (data : List Nat) (stride : Nat)
  | jpg (name : List Nat) (w h comp : Nat) (data : List Nat) (quality : Nat)
  deriving DecidableEq, Repr

/-- The two encoders. -/
inductive Encoder where
  | PNG
  | JPEG
  deriving DecidableEq, Repr

/-- Which encoder a writer call runs. -/
def WriteCall.encoder : WriteCall → Encoder
  | .png .. => .PNG
  | .jpg .. => .JPEG

/-- The file name a writer call receives. -/
def WriteCall.name : WriteCall → List Nat
  | .png n .. => n
  | .jpg n .. => n

/-- The pixel buffer a writer call receives. -/
def WriteCall.data : WriteCall → List Nat
  | .png _ _ _ _ d _ => d
  | .jpg _ _ _ _ d _ => d

/-- `saveImage(name, buffer, w, h, channels)`: the writer call it makes. The two writer
settings made first (vertical flip on, PNG compression level 0) are the same on every
path and are not recorded. -/
def saveImage (name : List Nat) (buffer : List Nat) (w h channels : Nat) : WriteCall :=
  if hasExtension name (chars ".png") then
    .png name w h channels buffer (channels * w)
  else if hasExtension name (chars ".jpg") || hasExtension name (chars "jpeg") then
    .jpg name w h channels buffer 100
  else
    -- Fall back on png
    .png name w h channels buffer (channels * w)

/-! ## Process-wide state -/

/-- The process-wide variables the capture code reads and writes, and a record of what
it asked of its collaborators. -/
structure State where
  /-- The flag `render::engine->useAltDisplayBuffer`. -/
  useAltDisplayBuffer : Bool
  /-- The flag `render::engine->lightCopy`. -/
  lightCopy : Bool
  /-- The redraw-pending bit behind `redrawRequested()` and `requestRedraw()`. -/
  redraw : Bool
  /-- The counter `state::screenshotInd`, a `size_t`. -/
  screenshotInd : Nat
  /-- The width `view::bufferWidth`. -/
  bufferWidth : Nat
  /-- The height `view::bufferHeight`. -/
  bufferHeight : Nat
  /-- One entry per completed draw: `(useAltDisplayBuffer, lightCopy)` as the draw saw them. -/
  draws : List (Bool × Bool)
  /-- One entry per writer call, oldest first. -/
  writes : List WriteCall
  deriving DecidableEq, Repr

/-- Modelled from the spec: `processLazyProperties` (polyscope.cpp, not part of the
sources at hand) leaves the redraw bit and the engine flags as they are. -/
def processLazyProperties (s : State) : State := s

/-- Modelled from the spec: `redrawRequested()` (polyscope.cpp) reads the redraw bit. -/
def redrawRequested (s : State) : Bool := s.redraw

/-- Modelled from the spec: `requestRedraw()` (polyscope.cpp) sets the redraw bit. -/
def requestRedraw (s : State) : State := { s with redraw := true }

/-- Modelled from the spec: `draw(withUI, withContextCallback)` (polyscope.cpp) renders
one frame under the engine flags in force and leaves the redraw bit cleared. -/
def draw (_withUI _withContextCallback : Bool) (s : State) : State :=
  { s with redraw := false, draws := s.draws ++ [(s.useAltDisplayBuffer, s.lightCopy)] }

/-! ## Capture -/

/-- The largest `int`. -/
def INT_MAX : Nat := 2 ^ 31 - 1

/-- The value of a non-negative `int` expression whose mathematical value is `n`:
`none` when `n` exceeds `INT_MAX` (signed overflow). -/
def checkedInt (n : Nat) : Option Nat := if n ≤ INT_MAX then some n else none

/-- The body of the alpha fix-up, `int ind = i + j * w; buff[4 * ind + 3] = 255;`:
every `int` result is checked, and so is the position of the store in the vector. -/
def alphaStore (w j i : Nat) (buff : List Nat) : Option (List Nat) := do
  let jw ← checkedInt (j * w)
  let ind ← checkedInt (i + jw)
  let ind4 ← checkedInt (4 * ind)
  let pos ← checkedInt (ind4 + 3)
  if pos < buff.length then some (buff.set pos 255) else none

/-- The inner loop of the alpha fix-up, row `j`: `for (int i = 0; i < w; i++) ...`. -/
def alphaRow (w j : Nat) (buff : List Nat) : Option (List Nat) :=
  (List.range w).foldlM (fun b i => alphaStore w j i b) buff

/-- The alpha fix-up `for (int j = 0; j < h; j++) for (int i = 0; i < w; i++) ...`. -/
def alphaLoop (w h : Nat) (buff : List Nat) : Option (List Nat) :=
  (List.range h).foldlM (fun b j => alphaRow w j b) buff

/-- `screenshot(std::string filename, bool transparentBG)`. The bytes that
`render::engine->displayBufferAlt->readBuffer()` returns after the draw are the
parameter `readBuffer`. -/
def screenshot (readBuffer : List Nat) (filename : List Nat) (transparentBG : Bool)
    (s : State) : Option State := do
  let s := { s with useAltDisplayBuffer := true }
  let s := if transparentBG then { s with lightCopy := true } else s
  -- Make sure we render first
  let s := processLazyProperties s
  let requestedAlready := redrawRequested s
  let s := requestRedraw s
  let s := draw false false s
  let s := if requestedAlready then requestRedraw s else s
  let w := s.bufferWidth
  let h := s.bufferHeight
  let buff := readBuffer
  -- Set alpha to 1
  let buff ← if !transparentBG then alphaLoop w h buff else some buff
  -- Save to file
  let s := { s with writes := s.writes ++ [saveImage filename buff w h 4] }
  let s := { s with useAltDisplayBuffer := false }
  some (if transparentBG then { s with lightCopy := false } else s)

/-- `screenshot(bool transparentBG)`. The string `file_dialog_save()` returns is the
parameter `dialog`, the configured `options::screenshotExtension` is `ext`. -/
def screenshot_bool (ext dialog readBuffer : List Nat) (transparentBG : Bool)
    (s : State) : Option State := do
  let defaultName := dialog
  -- only pngs can be written with transparency
  let transparentBG := if !hasExtension ext (chars ".png") then false else transparentBG
  let s ← screenshot readBuffer (defaultName ++ c_str ext) transparentBG s
  some { s with screenshotInd := (s.screenshotInd + 1) % 2 ^ 64 }

/-- `resetScreenshotIndex()`. -/
def resetScreenshotIndex (s : State) : State := { s with screenshotInd := 0 }

/-- One call into the capture interface, with what its collaborators return during it. -/
inductive Call where
  | screenshot (readBuffer filename : List Nat) (transparentBG : Bool)
  | screenshot_bool (ext dialog readBuffer : List Nat) (transparentBG : Bool)
  | resetScreenshotIndex
  deriving DecidableEq, Repr

/-- The effect of one call. -/
def Call.exec : Call → State → Option State
  | .screenshot rb f t, s => polyscope.screenshot rb f t s
  | .screenshot_bool e d rb t, s => polyscope.screenshot_bool e d rb t s
  | .resetScreenshotIndex, s => some (polyscope.resetScreenshotIndex s)

/-- The effect of a sequence of calls, first call first; `none` when one of them does
not return. -/
def run (cs : List Call) (s : State) : Option State := cs.foldlM (fun st c => c.exec st) s

/-- The wording of the specification for the counter: the number of no-filename captures
since the last reset, counted on from `n`. -/
def capturesSinceReset (n : Nat) : List Call → Nat
  | [] => n
  | .resetScreenshotIndex :: cs => capturesSinceReset 0 cs
  | .screenshot_bool .. :: cs => capturesSinceReset (n + 1) cs
  | .screenshot .. :: cs => capturesSinceReset n cs

/-- The read-back of a capture call fills a `w` by `h` view: it has `4 * w * h` bytes. -/
def Call.fills (w h : Nat) : Call → Prop
  | .screenshot rb _ _ => rb.length = 4 * w * h
  | .screenshot_bool _ _ rb _ => rb.length = 4 * w * h
  | .resetScreenshotIndex => True

/-- The buffer handed to the encoder by the latest writer call. -/
def State.handed (s : State) : List Nat :=
  match s.writes.getLast? with
  | some c => c.data
  | none => []

/-- An engine at rest, `w` by `h` pixels. -/
def idle (w h : Nat) : State :=
  { useAltDisplayBuffer := false, lightCopy := false, redraw := false, screenshotInd := 0,
    bufferWidth := w, bufferHeight := h, draws := [], writes := [] }

/-- The buffer after the stores of row `j`, each taken at its mathematical position
`4 * (i + j * w) + 3`: what `alphaRow` yields when every store is defined. -/
def rowStores (w j : Nat) (buff : List Nat) : List Nat :=
  (List.range w).foldl (fun b i => b.set (4 * (i + j * w) + 3) 255) buff

/-- The buffer after the stores of rows `0 .. h - 1`: what `alphaLoop` yields when every
store is defined. -/
def loopStores (w h : Nat) (buff : List Nat) : List Nat :=
  (List.range h).foldl (fun b j => rowStores w j b) buff

/-- The state a capture returns once the buffer `buff` it hands to `saveImage` is ready. -/
def captured (filename : List Nat) (transparentBG : Bool) (s : State) (buff : List Nat) :
    State :=
  { useAltDisplayBuffer := false
    lightCopy := if transparentBG then false else s.lightCopy
    redraw := s.redraw
    screenshotInd := s.screenshotInd
    bufferWidth := s.bufferWidth
    bufferHeight := s.bufferHeight
    draws := s.draws ++ [(true, if transparentBG then true else s.lightCopy)]
    writes := s.writes ++ [saveImage filename buff s.bufferWidth s.bufferHeight 4] }

/-! ## Lemmas: suffix tests -/

theorem tolower_idem (c : Nat) : tolower (tolower c) = tolower c := by
  unfold tolower; split_ifs <;> omega

theorem tolower_toupper (c : Nat) : tolower (toupper c) = tolower c := by
  unfold tolower toupper; split_ifs <;> omega

theorem map_tolower_idem (s : List Nat) : (s.map tolower).map tolower = s.map tolower := by
  simp [List.map_map, Function.comp_def, tolower_idem]

theorem map_tolower_toupper (s : List Nat) : (s.map toupper).map tolower = s.map tolower := by
  simp [List.map_map, Function.comp_def, tolower_toupper]

/-- The length test and `compare` of `hasExtension` amount to a suffix test. -/
theorem take_drop_beq_iff (a e : List Nat) :
    ((if a.length ≥ e.length then (a.drop (a.length - e.length)).take e.length == e
      else false) = true) ↔ e <:+ a := by
  constructor
  · intro h
    split_ifs at h with hl
    · have h1 : (a.drop (a.length - e.length)).take e.length = e := by simpa using h
      have h2 : (a.drop (a.length - e.length)).length ≤ e.length := by
        rw [List.length_drop]; omega
      rw [List.take_of_length_le h2] at h1
      exact List.suffix_iff_eq_drop.mpr h1.symm
  · intro h
    have hl : e.length ≤ a.length := h.length_le
    have h1 := List.suffix_iff_eq_drop.mp h
    rw [if_pos hl, ← h1, List.take_length]
    exact beq_self_eq_true e

/-- What `hasExtension` decides: the lower-cased `ext` is a suffix of the lower-cased `str`. -/
theorem hasExtension_iff (str ext : List Nat) :
    hasExtension str ext = true ↔ ext.map tolower <:+ str.map tolower := by
  unfold hasExtension
  exact take_drop_beq_iff (str.map tolower) (ext.map tolower)

theorem hasExtension_png (name : List Nat) :
    hasExtension name (chars ".png") = true ↔ lowerEndsIn name (chars ".png") :=
  hasExtension_iff name _

theorem hasExtension_jpg (name : List Nat) :
    hasExtension name (chars ".jpg") = true ↔ lowerEndsIn name (chars ".jpg") :=
  hasExtension_iff name _

theorem hasExtension_jpeg (name : List Nat) :
    hasExtension name (chars "jpeg") = true ↔ lowerEndsIn name (chars "jpeg") :=
  hasExtension_iff name _

/-- A name ending in ".jpeg" ends in "jpeg". -/
theorem lowerEndsIn_jpeg_of_dot (name : List Nat) (h : lowerEndsIn name (chars ".jpeg")) :
    lowerEndsIn name (chars "jpeg") :=
  List.IsSuffix.trans (show chars "jpeg" <:+ chars ".jpeg" by decide) h

/-- The test `hasExtension` sees a name only through its lower-cased form. -/
theorem hasExtension_congr (n₁ n₂ ext : List Nat) (h : n₁.map tolower = n₂.map tolower) :
    hasExtension n₁ ext = hasExtension n₂ ext := by
  unfold hasExtension; simp only [h]

theorem saveImage_encoder_congr (n₁ n₂ : List Nat) (b₁ b₂ : List Nat) (w₁ h₁ c₁ w₂ h₂ c₂ : Nat)
    (h : n₁.map tolower = n₂.map tolower) :
    (saveImage n₁ b₁ w₁ h₁ c₁).encoder = (saveImage n₂ b₂ w₂ h₂ c₂).encoder := by
  unfold saveImage
  rw [hasExtension_congr n₁ n₂ _ h, hasExtension_congr n₁ n₂ _ h, hasExtension_congr n₁ n₂ _ h]
  split_ifs <;> rfl

theorem foldl_set_length {ι : Type} (l : List ι) (f : ι → Nat) (v : Nat) (b : List Nat) :
    (l.foldl (fun b i => b.set (f i) v) b).length = b.length := by
  induction l generalizing b with
  | nil => rfl
  | cons x xs ih => simp [List.foldl_cons, ih]

/-- A fallible loop all of whose steps succeed is the plain loop. -/
theorem foldlM_eq_some_foldl {ι β : Type} (f : β → ι → Option β) (g : β → ι → β)
    (P : β → Prop) (l : List ι)
    (hstep : ∀ b x, x ∈ l → P b → f b x = some (g b x) ∧ P (g b x))
    (b : β) (hb : P b) :
    l.foldlM f b = some (l.foldl g b) ∧ P (l.foldl g b) := by
  induction l generalizing b with
  | nil => exact ⟨rfl, hb⟩
  | cons x xs ih =>
    obtain ⟨h1, h2⟩ := hstep b x (List.mem_cons_self x xs) hb
    rw [List.foldlM_cons, h1, List.foldl_cons]
    exact ih (fun b' y hy hb' => hstep b' y (List.mem_cons_of_mem x hy) hb') (g b x) h2

theorem alphaStore_eq (w j i : Nat) (b : List Nat) :
    alphaStore w j i b =
      if 4 * (i + j * w) + 3 ≤ INT_MAX ∧ 4 * (i + j * w) + 3 < b.length then
        some (b.set (4 * (i + j * w) + 3) 255)
      else none := by
  unfold alphaStore checkedInt
  by_cases h : 4 * (i + j * w) + 3 ≤ INT_MAX
  · have h1 : j * w ≤ INT_MAX := by omega
    have h2 : i + j * w ≤ INT_MAX := by omega
    have h3 : 4 * (i + j * w) ≤ INT_MAX := by omega
    simp [h, h1, h2, h3]
  · by_cases h1 : j * w ≤ INT_MAX
    · by_cases h2 : i + j * w ≤ INT_MAX
      · by_cases h3 : 4 * (i + j * w) ≤ INT_MAX
        · simp [h, h1, h2, h3]
        · simp [h, h1, h2, h3]
      · simp [h, h1, h2]
    · simp [h, h1]

theorem rowStores_length (w j : Nat) (b : List Nat) : (rowStores w j b).length = b.length :=
  foldl_set_length _ _ _ _

/-- Pixel `i + j * w` of a `w` by `h` view lies below `w * h`. -/
theorem pixel_lt (w h i j : Nat) (hi : i < w) (hj : j < h) : i + j * w < w * h := by
  have h1 : (j + 1) * w ≤ h * w := Nat.mul_le_mul_right w hj
  rw [Nat.succ_mul, Nat.mul_comm h w] at h1
  omega

/-- A row all of whose stores are in range is written as `rowStores` says. -/
theorem alphaRow_eq_some (w j : Nat) (b : List Nat)
    (h : ∀ i, i < w → 4 * (i + j * w) + 3 ≤ INT_MAX ∧ 4 * (i + j * w) + 3 < b.length) :
    alphaRow w j b = some (rowStores w j b) := by
  unfold alphaRow rowStores
  refine (foldlM_eq_some_foldl _ _ (fun b' => b'.length = b.length) _ ?_ b rfl).1
  intro b' i hi hb'
  rw [alphaStore_eq, if_pos (by rw [hb']; exact h i (List.mem_range.mp hi))]
  exact ⟨rfl, by show (b'.set _ _).length = b.length; rw [List.length_set, hb']⟩

/-- On a view of at most `2 ^ 29` pixels with a full-length buffer the loop is defined. -/
theorem alphaLoop_eq_some (w h : Nat) (b : List Nat) (hfit : w * h ≤ 2 ^ 29)
    (hlen : b.length = 4 * w * h) : alphaLoop w h b = some (loopStores w h b) := by
  unfold alphaLoop loopStores
  refine (foldlM_eq_some_foldl _ _ (fun b' => b'.length = b.length) _ ?_ b rfl).1
  intro b' j hj hb'
  refine ⟨alphaRow_eq_some w j b' ?_,
    by show (rowStores w j b').length = b.length; rw [rowStores_length, hb']⟩
  intro i hi
  have hp := pixel_lt w h i j hi (List.mem_range.mp hj)
  have hl : b'.length = 4 * (w * h) := by rw [hb', hlen, Nat.mul_assoc]
  have hm : INT_MAX = 2 ^ 31 - 1 := rfl
  constructor <;> omega

/-- The capture is the post-processing of the read-back followed by `captured`. -/
theorem screenshot_eq (rb f : List Nat) (t : Bool) (s : State) :
    screenshot rb f t s =
      (if t then some rb else alphaLoop s.bufferWidth s.bufferHeight rb).map
        (captured f t s) := by
  cases t <;> cases hr : s.redraw <;>
    cases ha : alphaLoop s.bufferWidth s.bufferHeight rb <;>
    simp [screenshot, captured, processLazyProperties, redrawRequested, requestRedraw, draw,
      hr, ha]

/-- A capture that returns has `captured` of some post-processed buffer as its state. -/
theorem screenshot_some (rb f : List Nat) (t : Bool) (s s' : State)
    (h : screenshot rb f t s = some s') :
    ∃ buff, (if t then some rb else alphaLoop s.bufferWidth s.bufferHeight rb) = some buff ∧
      s' = captured f t s buff := by
  rw [screenshot_eq] at h
  cases hb : (if t then some rb else alphaLoop s.bufferWidth s.bufferHeight rb) with
  | none => rw [hb] at h; cases h
  | some buff =>
    rw [hb] at h
    exact ⟨buff, rfl, (Option.some.inj h).symm⟩

/-- A transparent capture has no alpha loop and returns. -/
theorem screenshot_true (rb f : List Nat) (s : State) :
    screenshot rb f true s = some (captured f true s rb) := by
  rw [screenshot_eq]; rfl

/-- An opaque capture of at most `2 ^ 29` pixels with a full-length read-back returns. -/
theorem screenshot_false (rb f : List Nat) (s : State)
    (hfit : s.bufferWidth * s.bufferHeight ≤ 2 ^ 29)
    (hlen : rb.length = 4 * s.bufferWidth * s.bufferHeight) :
    screenshot rb f false s
      = some (captured f false s (loopStores s.bufferWidth s.bufferHeight rb)) := by
  rw [screenshot_eq]
  simp only [Bool.false_eq_true, if_false]
  rw [alphaLoop_eq_some _ _ _ hfit hlen]; rfl

theorem screenshot_returns (rb f : List Nat) (t : Bool) (s : State)
    (h : t = true ∨ (s.bufferWidth * s.bufferHeight ≤ 2 ^ 29 ∧
      rb.length = 4 * s.bufferWidth * s.bufferHeight)) :
    ∃ s', screenshot rb f t s = some s' := by
  cases t with
  | true => exact ⟨_, screenshot_true rb f s⟩
  | false =>
    rcases h with h | h
    · cases h
    · exact ⟨_, screenshot_false rb f s h.1 h.2⟩

/-- The prompting capture is the explicit-path capture followed by the counter step. -/
theorem screenshot_bool_eq (ext dialog rb : List Nat) (t : Bool) (s : State) :
    screenshot_bool ext dialog rb t s =
      (screenshot rb (dialog ++ c_str ext)
        (if !hasExtension ext (chars ".png") then false else t) s).map
        (fun s' => { s' with screenshotInd := (s'.screenshotInd + 1) % 2 ^ 64 }) := by
  unfold screenshot_bool
  dsimp only
  cases screenshot rb (dialog ++ c_str ext)
    (if !hasExtension ext (chars ".png") then false else t) s <;> rfl

theorem screenshot_bool_some (ext dialog rb : List Nat) (t : Bool) (s s' : State)
    (h : screenshot_bool ext dialog rb t s = some s') :
    ∃ buff, s' = { captured (dialog ++ c_str ext)
        (if !hasExtension ext (chars ".png") then false else t) s buff with
      screenshotInd := (s.screenshotInd + 1) % 2 ^ 64 } := by
  rw [screenshot_bool_eq] at h
  cases hs : screenshot rb (dialog ++ c_str ext)
      (if !hasExtension ext (chars ".png") then false else t) s with
  | none => rw [hs] at h; cases h
  | some s₁ =>
    rw [hs] at h
    obtain ⟨buff, _, h₁⟩ := screenshot_some _ _ _ _ _ hs
    refine ⟨buff, ?_⟩
    rw [← Option.some.inj h, h₁]
    rfl

theorem screenshot_bool_returns (ext dialog rb : List Nat) (t : Bool) (s : State)
    (hfit : s.bufferWidth * s.bufferHeight ≤ 2 ^ 29)
    (hlen : rb.length = 4 * s.bufferWidth * s.bufferHeight) :
    ∃ s', screenshot_bool ext dialog rb t s = some s' := by
  rw [screenshot_bool_eq]
  obtain ⟨s₁, h₁⟩ := screenshot_returns rb (dialog ++ c_str ext)
    (if !hasExtension ext (chars ".png") then false else t) s (Or.inr ⟨hfit, hlen⟩)
  exact ⟨_, by rw [h₁]; rfl⟩

/-- What one returning call keeps: the view size; what it re-establishes: cleared flags;
how it moves the counter. -/
theorem exec_some (c : Call) (s s' : State) (h : c.exec s = some s') :
    s'.bufferWidth = s.bufferWidth ∧ s'.bufferHeight = s.bufferHeight ∧
    s'.useAltDisplayBuffer = (match c with
      | .resetScreenshotIndex => s.useAltDisplayBuffer
      | _ => false) ∧
    (s.lightCopy = false → s'.lightCopy = false) ∧
    ∀ n, s.screenshotInd = n % 2 ^ 64 → s'.screenshotInd = capturesSinceReset n [c] % 2 ^ 64 := by
  cases c with
  | screenshot rb f t =>
    obtain ⟨buff, _, h₁⟩ := screenshot_some rb f t s s' h
    subst h₁
    refine ⟨rfl, rfl, rfl, ?_, fun n hn => hn⟩
    intro hl
    show (if t then false else s.lightCopy) = false
    rw [hl]; simp
  | screenshot_bool e d rb t =>
    obtain ⟨buff, h₁⟩ := screenshot_bool_some e d rb t s s' h
    subst h₁
    refine ⟨rfl, rfl, rfl, ?_, ?_⟩
    · intro hl
      show (if (if !hasExtension e (chars ".png") then false else t) then false
        else s.lightCopy) = false
      rw [hl]; simp
    · intro n hn
      show (s.screenshotInd + 1) % 2 ^ 64 = (n + 1) % 2 ^ 64
      rw [hn, Nat.add_mod, Nat.mod_mod, ← Nat.add_mod]
  | resetScreenshotIndex =>
    have h₁ : s' = resetScreenshotIndex s := (Option.some.inj h).symm
    subst h₁
    exact ⟨rfl, rfl, rfl, fun hl => hl, fun _ _ => rfl⟩

theorem exec_flags (c : Call) (s s' : State) (h : c.exec s = some s')
    (hf : s.useAltDisplayBuffer = false ∧ s.lightCopy = false) :
    s'.useAltDisplayBuffer = false ∧ s'.lightCopy = false := by
  obtain ⟨_, _, h3, h4, _⟩ := exec_some c s s' h
  refine ⟨?_, h4 hf.2⟩
  rw [h3]
  cases c <;> first | rfl | exact hf.1

theorem run_cons (c : Call) (cs : List Call) (s : State) :
    run (c :: cs) s = (c.exec s).bind (run cs) := by
  unfold run
  rw [List.foldlM_cons]
  rfl

theorem run_flags (cs : List Call) (s s' : State) (h : run cs s = some s')
    (hf : s.useAltDisplayBuffer = false ∧ s.lightCopy = false) :
    s'.useAltDisplayBuffer = false ∧ s'.lightCopy = false := by
  induction cs generalizing s with
  | nil =>
    have : s' = s := (Option.some.inj h).symm
    rw [this]; exact hf
  | cons c cs ih =>
    rw [run_cons] at h
    cases hc : c.exec s with
    | none => rw [hc] at h; cases h
    | some s₁ =>
      rw [hc] at h
      exact ih s₁ h (exec_flags c s s₁ hc hf)

theorem exec_returns (c : Call) (s : State)
    (hfit : s.bufferWidth * s.bufferHeight ≤ 2 ^ 29)
    (hc : c.fills s.bufferWidth s.bufferHeight) : ∃ s', c.exec s = some s' := by
  cases c with
  | screenshot rb f t => exact screenshot_returns rb f t s (Or.inr ⟨hfit, hc⟩)
  | screenshot_bool e d rb t => exact screenshot_bool_returns e d rb t s hfit hc
  | resetScreenshotIndex => exact ⟨_, rfl⟩

theorem run_returns (cs : List Call) (s : State)
    (hfit : s.bufferWidth * s.bufferHeight ≤ 2 ^ 29)
    (hcs : ∀ c ∈ cs, c.fills s.bufferWidth s.bufferHeight) : ∃ s', run cs s = some s' := by
  induction cs generalizing s with
  | nil => exact ⟨s, rfl⟩
  | cons c cs ih =>
    obtain ⟨s₁, h₁⟩ := exec_returns c s hfit (hcs c (List.mem_cons_self c cs))
    obtain ⟨hw, hh, _⟩ := exec_some c s s₁ h₁
    rw [run_cons, h₁]
    refine ih s₁ (by rw [hw, hh]; exact hfit) ?_
    intro c' hc'
    rw [hw, hh]
    exact hcs c' (List.mem_cons_of_mem c hc')

/-- C2: `saveImage` picks the encoder by a case-insensitive suffix test: a name whose
lower-cased form ends in ".png" goes to the PNG writer, one ending in ".jpg" or ".jpeg"
(and not in ".png") to the JPEG writer, two names that differ only in letter case get the
same encoder, and "a.PNG", "a.xyz" select PNG while "a.jpg", "a.JPEG" select JPEG. -/
theorem saveImage_format (name buffer : List Nat) (w h channels : Nat) :
    (lowerEndsIn name (chars ".png") → (saveImage name buffer w h channels).encoder = .PNG) ∧
    (lowerEndsIn name (chars ".jpg") ∨ lowerEndsIn name (chars ".jpeg") →
      ¬ lowerEndsIn name (chars ".png") →
      (saveImage name buffer w h channels).encoder = .JPEG) ∧
    (∀ other : List Nat, other.map tolower = name.map tolower →
      (saveImage other buffer w h channels).encoder
        = (saveImage name buffer w h channels).encoder) ∧
    (saveImage (name.map toupper) buffer w h channels).encoder
        = (saveImage name buffer w h channels).encoder ∧
    (saveImage (name.map tolower) buffer w h channels).encoder
        = (saveImage name buffer w h channels).encoder ∧
    (saveImage (chars "a.PNG") buffer w h channels).encoder = .PNG ∧
    (saveImage (chars "a.xyz") buffer w h channels).encoder = .PNG ∧
    (saveImage (chars "a.jpg") buffer w h channels).encoder = .JPEG ∧
    (saveImage (chars "a.JPEG") buffer w h channels).encoder = .JPEG := by
  refine ⟨?_, ?_, ?_, ?_, ?_, ?_, ?_, ?_, ?_⟩
  · intro hp
    unfold saveImage
    rw [if_pos ((hasExtension_png name).mpr hp)]
    rfl
  · intro hj hp
    have h1 : hasExtension name (chars ".png") = false := by
      rw [← Bool.not_eq_true, hasExtension_png]; exact hp
    have h2 : (hasExtension name (chars ".jpg") || hasExtension name (chars "jpeg")) = true := by
      rcases hj with hj | hj
      · rw [(hasExtension_jpg name).mpr hj]; rfl
      · rw [(hasExtension_jpeg name).mpr (lowerEndsIn_jpeg_of_dot name hj)]
        exact Bool.or_true _
    unfold saveImage
    rw [h1, h2]
    rfl
  · intro other ho
    exact saveImage_encoder_congr _ _ _ _ _ _ _ _ _ _ ho
  · exact saveImage_encoder_congr _ _ _ _ _ _ _ _ _ _ (map_tolower_toupper name)
  · exact saveImage_encoder_congr _ _ _ _ _ _ _ _ _ _ (map_tolower_idem name)
  · have : hasExtension (chars "a.PNG") (chars ".png") = true := by decide
    unfold saveImage; rw [this]; rfl
  · have h1 : hasExtension (chars "a.xyz") (chars ".png") = false := by decide
    have h2 : hasExtension (chars "a.xyz") (chars ".jpg") = false := by decide
    have h3 : hasExtension (chars "a.xyz") (chars "jpeg") = false := by decide
    unfold saveImage; rw [h1, h2, h3]; rfl
  · have h1 : hasExtension (chars "a.jpg") (chars ".png") = false := by decide
    have h2 : hasExtension (chars "a.jpg") (chars ".jpg") = true := by decide
    unfold saveImage; rw [h1, h2]; rfl
  · have h1 : hasExtension (chars "a.JPEG") (chars ".png") = false := by decide
    have h2 : hasExtension (chars "a.JPEG") (chars ".jpg") = false := by decide
    have h3 : hasExtension (chars "a.JPEG") (chars "jpeg") = true := by decide
    unfold saveImage; rw [h1, h2, h3]; rfl

theorem saveImage_format_witness :
    lowerEndsIn (chars "Shot.JpEg") (chars ".jpeg") ∧
      ¬ lowerEndsIn (chars "Shot.JpEg") (chars ".png") ∧
      (saveImage (chars "Shot.JpEg") [0, 0, 0, 0] 1 1 4).encoder = .JPEG ∧
      lowerEndsIn (chars "Shot.pNG") (chars ".png") ∧
      (saveImage (chars "Shot.pNG") [0, 0, 0, 0] 1 1 4).encoder = .PNG :=
  ⟨by decide, by decide,
    (saveImage_format (chars "Shot.JpEg") [0, 0, 0, 0] 1 1 4).2.1 (Or.inr (by decide))
      (by decide),
    by decide,
    (saveImage_format (chars "Shot.pNG") [0, 0, 0, 0] 1 1 4).1 (by decide)⟩

/-- C3: from an engine state with `useAltDisplayBuffer` and `lightCopy` both false, after
every call of every finite sequence of calls (explicit-path captures, prompting captures,
counter resets) has returned, both flags are false again; and on a view of at most
`2 ^ 29` pixels with full-length read-backs every call of the sequence does return. -/
theorem flags_clear_after_every_call (cs : List Call) (s : State)
    (halt : s.useAltDisplayBuffer = false) (hlight : s.lightCopy = false) :
    (∀ k, k ≤ cs.length → ∀ s', run (cs.take k) s = some s' →
      s'.useAltDisplayBuffer = false ∧ s'.lightCopy = false) ∧
    (s.bufferWidth * s.bufferHeight ≤ 2 ^ 29 →
      (∀ c ∈ cs, c.fills s.bufferWidth s.bufferHeight) →
      ∀ k, k ≤ cs.length → ∃ s', run (cs.take k) s = some s' ∧
        s'.useAltDisplayBuffer = false ∧ s'.lightCopy = false) := by
  refine ⟨fun k _ s' h => run_flags (cs.take k) s s' h ⟨halt, hlight⟩, ?_⟩
  intro hfit hcs k _
  obtain ⟨s', h⟩ := run_returns (cs.take k) s hfit
    (fun c hc => hcs c (List.mem_of_mem_take hc))
  exact ⟨s', h, run_flags (cs.take k) s s' h ⟨halt, hlight⟩⟩

theorem flags_clear_after_every_call_witness :
    (idle 1 1).useAltDisplayBuffer = false ∧ (idle 1 1).lightCopy = false ∧
    ∃ s', run ([Call.screenshot [1, 2, 3, 4] (chars "a.png") true,
                Call.screenshot_bool (chars ".jpg") (chars "b") [1, 2, 3, 4] true,
                Call.screenshot [1, 2, 3, 4] (chars "c.jpg") false].take 2) (idle 1 1)
          = some s' ∧
      s'.useAltDisplayBuffer = false ∧ s'.lightCopy = false :=
  ⟨rfl, rfl,
    (flags_clear_after_every_call
      [Call.screenshot [1, 2, 3, 4] (chars "a.png") true,
       Call.screenshot_bool (chars ".jpg") (chars "b") [1, 2, 3, 4] true,
       Call.screenshot [1, 2, 3, 4] (chars "c.jpg") false]
      (idle 1 1) rfl rfl).2 (by decide)
      (by
        intro c hc
        simp only [List.mem_cons, List.mem_singleton, List.not_mem_nil, or_false] at hc
        rcases hc with hc | hc | hc <;> subst hc <;> exact (by decide : [1, 2, 3, 4].length = 4 * 1 * 1))
      2 (by decide)⟩

/-- C4: the redraw-pending bit after `screenshot(filename, transparentBG)` has returned is
the bit before the call (`requestRedraw` sets the bit, `draw` leaves it cleared,
`processLazyProperties` keeps it), and so two captures in a row leave it as it was before
the first; a transparent capture always returns, an opaque one on a view of at most
`2 ^ 29` pixels with a full-length read-back. -/
theorem screenshot_redraw (readBuffer filename : List Nat) (transparentBG : Bool) (s : State) :
    (requestRedraw s).redraw = true ∧
    (draw false false s).redraw = false ∧
    (processLazyProperties s).redraw = s.redraw ∧
    (∀ s', screenshot readBuffer filename transparentBG s = some s' →
      s'.redraw = s.redraw ∧
      ∀ (readBuffer₂ filename₂ : List Nat) (transparentBG₂ : Bool) (s'' : State),
        screenshot readBuffer₂ filename₂ transparentBG₂ s' = some s'' →
        s''.redraw = s.redraw) ∧
    (transparentBG = true ∨ (s.bufferWidth * s.bufferHeight ≤ 2 ^ 29 ∧
        readBuffer.length = 4 * s.bufferWidth * s.bufferHeight) →
      ∃ s', screenshot readBuffer filename transparentBG s = some s' ∧
        s'.redraw = s.redraw) := by
  refine ⟨rfl, rfl, rfl, ?_, ?_⟩
  · intro s' h
    obtain ⟨buff, _, h₁⟩ := screenshot_some _ _ _ _ _ h
    subst h₁
    refine ⟨rfl, ?_⟩
    intro rb₂ f₂ t₂ s'' h₂
    obtain ⟨buff₂, _, h₃⟩ := screenshot_some _ _ _ _ _ h₂
    subst h₃
    rfl
  · intro hr
    obtain ⟨s', h⟩ := screenshot_returns readBuffer filename transparentBG s hr
    obtain ⟨buff, _, h₁⟩ := screenshot_some _ _ _ _ _ h
    exact ⟨s', h, by rw [h₁]; rfl⟩

theorem screenshot_redraw_witness :
    ∃ s', screenshot [1, 2, 3, 0] (chars "a.png") false { idle 1 1 with redraw := true }
        = some s' ∧ s'.redraw = true :=
  (screenshot_redraw [1, 2, 3, 0] (chars "a.png") false { idle 1 1 with redraw := true }).2.2.2.2
    (Or.inr ⟨by decide, by decide⟩)

/-- C6: the explicit-path capture at the name "a.jpg" with `transparentBG = true`, on a
one-pixel view at rest whose read-back has alpha 0: the name does not end in ".png", yet
the call returns after a draw with `lightCopy` switched on, and the JPEG writer has
received the read-back with its alpha byte still 0. -/
theorem screenshot_jpg_transparent_not_downgraded :
    ¬ lowerEndsIn (chars "a.jpg") (chars ".png") ∧
    (screenshot [10, 20, 30, 0] (chars "a.jpg") true (idle 1 1)).map State.draws
      = some [(true, true)] ∧
    (screenshot [10, 20, 30, 0] (chars "a.jpg") true (idle 1 1)).map State.writes
      = some [.jpg (chars "a.jpg") 1 1 4 [10, 20, 30, 0] 100] ∧
    (screenshot [10, 20, 30, 0] (chars "a.jpg") true (idle 1 1)).map
      (fun s => s.handed[4 * 0 + 3]?) = some (some 0) := by
  decide

/-- C7: the name "xjpeg" has a lower-cased form that ends in none of ".png", ".jpg" and
".jpeg", and `saveImage` sends it to the JPEG writer, not to the PNG fall-back: the third
test of `saveImage` compares with "jpeg", without the dot. -/
theorem saveImage_xjpeg_not_fallback :
    ¬ lowerEndsIn (chars "xjpeg") (chars ".png") ∧
    ¬ lowerEndsIn (chars "xjpeg") (chars ".jpg") ∧
    ¬ lowerEndsIn (chars "xjpeg") (chars ".jpeg") ∧
    saveImage (chars "xjpeg") [10, 20, 30, 40] 1 1 4
      = .jpg (chars "xjpeg") 1 1 4 [10, 20, 30, 40] 100 := by
  decide

end polyscope
